import Mathlib

/-!
Verification of the teapot opportunity ingestion / indexing / matching pipeline.

The development shallowly embeds the pure core of `process_oportunities.py`
and `app.py`:
  * Python strings are Lean `String`; `str.strip()` is `pyStrip`,
    `str.lower()` is `pyLower`, slicing `s[:n]` is `pyTake`, and the
    substring test `a in b` is `hasSegment a.data b.data` (all defined
    below by structural recursion over the character list, mirroring the
    Python operations on ASCII data).
  * Python dicts used as ordered maps are association lists
    `List (key × value)` with dict insertion semantics (an update keeps
    the key's original position, a new key is appended).
  * Scores built from the float literals 2.0 / 1.5 are modelled in `ℚ`:
    every reachable score is a sum of multiples of 0.5, all of which are
    represented exactly by IEEE doubles, and float comparison on them
    agrees with the rational comparison.
  * The sha256 content hash (`compute_thumbprint`) is modelled as a
    function parameter `hashFn : String → String`; the gate only compares
    hashes for equality, so no property below depends on the concrete
    hash function.
  * The LLM call inside `extract_opportunity` is modelled by an input
    describing its observable outcome: the call raises, returns non-JSON
    text, returns JSON that is not an object, or returns an object.
-/

namespace Teapot

/-! ### Python string primitives -/

/-- `str.lower()` (ASCII case mapping, as all vocabulary and query data
in this system is ASCII). -/
def pyLower (s : String) : String := ⟨s.data.map Char.toLower⟩

/-- `str.strip()`: drop leading and trailing whitespace. -/
def pyStrip (s : String) : String :=
  ⟨((s.data.dropWhile Char.isWhitespace).reverse.dropWhile
      Char.isWhitespace).reverse⟩

/-- The slice `s[:n]` (by code points). -/
def pyTake (s : String) (n : Nat) : String := ⟨s.data.take n⟩

/-- `str.endswith(suffix)`. -/
def pyEndsWith (s suf : String) : Bool :=
  (s.data.reverse.take suf.data.length) = suf.data.reverse

/-- `PurePath.stem` for a name known to end in `".json"`: the name with
its last `n` characters removed. -/
def pyDropRight (s : String) (n : Nat) : String :=
  ⟨s.data.take (s.data.length - n)⟩

/-- `startsList p l` : the character list `p` is an initial segment of `l`
(Python `str.startswith` on the underlying characters). -/
def startsList : List Char → List Char → Bool
  | [], _ => true
  | _ :: _, [] => false
  | a :: as, b :: bs => a = b && startsList as bs

/-- `hasSegment needle hay` : `needle` occurs as a contiguous segment of
`hay`; this is Python's substring test `needle in hay`. -/
def hasSegment (needle : List Char) : List Char → Bool
  | [] => needle.isEmpty
  | b :: bs => startsList needle (b :: bs) || hasSegment needle bs

theorem startsList_iff (p l : List Char) :
    startsList p l = true ↔ ∃ r, l = p ++ r := by
  induction p generalizing l with
  | nil => simp [startsList]
  | cons a as ih =>
    cases l with
    | nil => simp [startsList]
    | cons b bs =>
      simp only [startsList, Bool.and_eq_true, decide_eq_true_eq, ih]
      constructor
      · rintro ⟨h1, r, rfl⟩; exact ⟨r, by simp [h1]⟩
      · rintro ⟨r, h⟩
        injection h with h1 h2
        exact ⟨h1.symm, r, h2⟩

theorem hasSegment_iff (p l : List Char) :
    hasSegment p l = true ↔ ∃ s r, l = s ++ p ++ r := by
  induction l with
  | nil =>
    simp only [hasSegment, List.isEmpty_iff]
    constructor
    · rintro rfl; exact ⟨[], [], rfl⟩
    · rintro ⟨s, r, h⟩
      rcases List.append_eq_nil.mp h.symm with ⟨h1, h2⟩
      exact (List.append_eq_nil.mp h1).2
  | cons b bs ih =>
    simp only [hasSegment, Bool.or_eq_true, startsList_iff, ih]
    constructor
    · rintro (⟨r, h⟩ | ⟨s, r, h⟩)
      · exact ⟨[], r, by simpa using h⟩
      · exact ⟨b :: s, r, by simp [h]⟩
    · rintro ⟨s, r, h⟩
      cases s with
      | nil => exact Or.inl ⟨r, by simpa using h⟩
      | cons c cs =>
        injection h with h1 h2
        exact Or.inr ⟨cs, r, h2⟩

/-! ### Vocabulary Loader (`load_reference_list`)

The loader's interaction with the file system and the JSON parser is
represented by the observable shape of the file's content: the stripped
content is empty, fails to parse, parses to a non-list, or parses to a
list (whose items are given after Python's `str()` coercion). -/

inductive RefFileData where
  | emptyFile
  | badJson
  | jsonNonList
  | jsonList (items : List String)
deriving DecidableEq

/-- Embedding of `load_reference_list` (the path-exists check is outside
this model: the claims concern an existing file).  `Except.error`
represents a raised `ValueError`; the `Bool` in the result records
whether a warning was printed. -/
def load_reference_list (data : RefFileData) (label : String) :
    Except String (List String × Bool) :=
  match data with
  | .emptyFile => .ok ([], true)
  | .badJson => .error (label ++ " file must contain a JSON list")
  | .jsonNonList => .error (label ++ " file must contain a JSON list")
  | .jsonList items =>
      let cleaned := (items.map pyStrip).filter (fun v => v ≠ "")
      .ok (cleaned, cleaned.isEmpty)

/-! ### Normalizer (`_match_token`, `_filter_list`)

`build_processing_graph` builds `skill_map = {s.lower(): s for s in
allowed_skills}`; the dict is an ordered association list. -/

/-- Python dict assignment `m[k] = v`: updating an existing key keeps its
position, a new key is appended at the end. -/
def dictInsert (m : List (String × String)) (k v : String) :
    List (String × String) :=
  if m.any (fun p => p.1 = k) then
    m.map (fun p => if p.1 = k then (k, v) else p)
  else m ++ [(k, v)]

/-- Embedding of the dict comprehension `{t.lower(): t for t in terms}`. -/
def buildAllowedMap (terms : List String) : List (String × String) :=
  terms.foldl (fun m t => dictInsert m (pyLower t) t) []

/-- Embedding of `_match_token`. -/
def matchToken (token : String) (m : List (String × String)) : Option String :=
  let t := pyLower (pyStrip token)
  if t = "" || m.isEmpty then none
  else
    match m.find? (fun p => p.1 = t) with
    | some p => some p.2
    | none =>
        (m.find? (fun p =>
          hasSegment t.data p.1.data || hasSegment p.1.data t.data)).map Prod.snd

/-- Embedding of `_filter_list` (items are given after `str()` coercion). -/
def filterList (values : List String) (m : List (String × String)) :
    List String :=
  values.foldl (fun acc v =>
    let text := pyStrip v
    match matchToken text m with
    | some mt => if mt ≠ "" ∧ mt ∉ acc then acc ++ [mt] else acc
    | none => acc) []

/-- Matching rule as the specification words it, directly over the
vocabulary list: lower-case the trimmed token; an exact case-insensitive
match returns that vocabulary term's canonical casing; otherwise the
first vocabulary term (in vocabulary order) in a case-insensitive
substring relation with the token, in either direction; otherwise none. -/
def specMatchToken (token : String) (vocab : List String) : Option String :=
  let t := pyLower (pyStrip token)
  if t = "" then none
  else
    match vocab.find? (fun v => pyLower v = t) with
    | some v => some v
    | none =>
        vocab.find? (fun v =>
          hasSegment t.data (pyLower v).data || hasSegment (pyLower v).data t.data)

/-- The filtering pass as the specification words it: map each candidate
through the matching rule, drop failures, de-duplicate by canonical term
keeping first-seen order. -/
def specFilterList (values : List String) (vocab : List String) :
    List String :=
  values.foldl (fun acc v =>
    match specMatchToken (pyStrip v) vocab with
    | some mt => if mt ≠ "" ∧ mt ∉ acc then acc ++ [mt] else acc
    | none => acc) []

theorem dictInsert_fresh (m : List (String × String)) (k v : String)
    (h : ∀ p ∈ m, p.1 ≠ k) : dictInsert m k v = m ++ [(k, v)] := by
  unfold dictInsert
  rw [if_neg]
  intro hc
  rw [List.any_eq_true] at hc
  obtain ⟨p, hp, hk⟩ := hc
  exact h p hp (by simpa using hk)

/-- When the lower-cased vocabulary terms are pairwise distinct, the dict
comprehension is just the pairing `t ↦ (pyLower t, t)` in vocabulary
order. -/
theorem buildAllowedMap_eq_aux (ts : List String) (acc : List (String × String))
    (h : (acc.map Prod.fst ++ ts.map pyLower).Nodup) :
    ts.foldl (fun m t => dictInsert m (pyLower t) t) acc
      = acc ++ ts.map (fun t => (pyLower t, t)) := by
  induction ts generalizing acc with
  | nil => simp
  | cons t ts ih =>
    simp only [List.foldl_cons]
    have hfresh : ∀ p ∈ acc, p.1 ≠ pyLower t := by
      intro p hp heq
      have hd := (List.nodup_append.mp h).2.2
      exact hd (List.mem_map_of_mem Prod.fst hp) (by simp [heq])
    rw [dictInsert_fresh acc (pyLower t) t hfresh]
    rw [ih (acc ++ [(pyLower t, t)]) ?_]
    · simp
    · simpa [List.append_assoc] using h

theorem buildAllowedMap_eq (vocab : List String)
    (h : (vocab.map pyLower).Nodup) :
    buildAllowedMap vocab = vocab.map (fun t => (pyLower t, t)) := by
  have := buildAllowedMap_eq_aux vocab [] (by simpa using h)
  simpa [buildAllowedMap] using this

theorem matchToken_eq_spec (token : String) (vocab : List String)
    (h : (vocab.map pyLower).Nodup) :
    matchToken token (buildAllowedMap vocab) = specMatchToken token vocab := by
  rw [buildAllowedMap_eq vocab h]
  unfold matchToken specMatchToken
  by_cases ht : pyLower (pyStrip token) = ""
  · simp [ht]
  · simp only [ht, Bool.false_or, if_neg]
    cases hv : vocab with
    | nil => simp
    | cons v vs =>
      have hne : ((v :: vs).map (fun t => (pyLower t, t))).isEmpty = false := by
        simp
      rw [hne]
      simp only [Bool.false_eq_true, if_false]
      rw [List.find?_map, List.find?_map]
      have h1 : ((fun p : String × String =>
            decide (p.1 = pyLower (pyStrip token))) ∘
          fun t => (pyLower t, t))
          = fun v => decide (pyLower v = pyLower (pyStrip token)) := rfl
      have h2 : ((fun p : String × String =>
            hasSegment (pyLower (pyStrip token)).data p.1.data ||
              hasSegment p.1.data (pyLower (pyStrip token)).data) ∘
          fun t => (pyLower t, t)) = fun v =>
            hasSegment (pyLower (pyStrip token)).data (pyLower v).data ||
              hasSegment (pyLower v).data (pyLower (pyStrip token)).data := rfl
      rw [h1, h2]
      cases hfind : (v :: vs).find?
          (fun v => decide (pyLower v = pyLower (pyStrip token))) with
      | some w => simp
      | none =>
        have h3 : (Prod.snd ∘ fun t : String => (pyLower t, t)) = id := rfl
        simp [h3]

/-- Every term returned by `matchToken` is a value of the map. -/
theorem matchToken_mem (token : String) (m : List (String × String)) (x : String)
    (h : matchToken token m = some x) : ∃ p ∈ m, p.2 = x := by
  unfold matchToken at h
  by_cases ht : (pyLower (pyStrip token) = "" || m.isEmpty) = true
  · simp [ht] at h
  · rw [if_neg ht] at h
    cases hfind : m.find? (fun p => p.1 = pyLower (pyStrip token)) with
    | some p =>
      rw [hfind] at h
      exact ⟨p, List.mem_of_find?_eq_some hfind, Option.some.inj h⟩
    | none =>
      rw [hfind] at h
      cases hfind2 : m.find? (fun p =>
          hasSegment (pyLower (pyStrip token)).data p.1.data ||
            hasSegment p.1.data (pyLower (pyStrip token)).data) with
      | some p =>
        rw [hfind2] at h
        exact ⟨p, List.mem_of_find?_eq_some hfind2, Option.some.inj h⟩
      | none => rw [hfind2] at h; simp at h

theorem filterList_sub_aux (values : List String) (m : List (String × String))
    (acc : List String) (hacc : ∀ x ∈ acc, ∃ p ∈ m, p.2 = x) :
    ∀ x ∈ values.foldl (fun acc v =>
      match matchToken (pyStrip v) m with
      | some mt => if mt ≠ "" ∧ mt ∉ acc then acc ++ [mt] else acc
      | none => acc) acc, ∃ p ∈ m, p.2 = x := by
  induction values generalizing acc with
  | nil => simpa using hacc
  | cons v vs ih =>
    simp only [List.foldl_cons]
    cases hmt : matchToken (pyStrip v) m with
    | none => exact ih acc hacc
    | some mt =>
      by_cases hcond : mt ≠ "" ∧ mt ∉ acc
      · simp only [hmt, if_pos hcond]
        refine ih (acc ++ [mt]) ?_
        intro x hx
        rcases List.mem_append.mp hx with hx | hx
        · exact hacc x hx
        · simp at hx; subst hx; exact matchToken_mem (pyStrip v) m x hmt
      · simp only [hmt, if_neg hcond]
        exact ih acc hacc

theorem filterList_nodup_aux (values : List String) (m : List (String × String))
    (acc : List String) (hacc : acc.Nodup) :
    (values.foldl (fun acc v =>
      match matchToken (pyStrip v) m with
      | some mt => if mt ≠ "" ∧ mt ∉ acc then acc ++ [mt] else acc
      | none => acc) acc).Nodup := by
  induction values generalizing acc with
  | nil => simpa using hacc
  | cons v vs ih =>
    simp only [List.foldl_cons]
    cases hmt : matchToken (pyStrip v) m with
    | none => exact ih acc hacc
    | some mt =>
      by_cases hcond : mt ≠ "" ∧ mt ∉ acc
      · simp only [hmt, if_pos hcond]
        exact ih (acc ++ [mt]) (by simp [List.nodup_append, hacc, hcond.2])
      · simp only [hmt, if_neg hcond]
        exact ih acc hacc

theorem filterList_unfold (values : List String) (m : List (String × String)) :
    filterList values m = values.foldl (fun acc v =>
      match matchToken (pyStrip v) m with
      | some mt => if mt ≠ "" ∧ mt ∉ acc then acc ++ [mt] else acc
      | none => acc) [] := rfl

/-! ### Extraction Service Adapter (`extract_opportunity`) -/

/-- The candidate record the LLM is asked for.  Missing / `None` fields
behave like `""` (respectively `[]`) everywhere downstream, because the
consumers apply Python truthiness (`x or fallback`, `if not values`). -/
structure CandidateRec where
  title : String
  description : String
  skills : List String
  interests : List String
deriving DecidableEq

/-- Observable outcome of `llm.invoke` + `json.loads` on its content:
the call raises (transport error), the content is not JSON, it is JSON
but not an object, or it is an object. -/
inductive LlmResult where
  | transportError
  | nonJson
  | jsonNonObject
  | jsonObject (r : CandidateRec)
deriving DecidableEq

/-- Embedding of the `extract_opportunity` node: any failure produces the
synthetic fallback record.  Note the source strips `raw_text` before
taking the first 400 characters. -/
def extract_opportunity (llm : LlmResult) (rawText fileName : String) :
    CandidateRec :=
  let raw := pyStrip rawText
  match llm with
  | .jsonObject r => r
  | _ => { title := fileName, description := pyTake raw 400,
           skills := [], interests := [] }

/-! ### Normalizer node and stored record -/

structure NormalizedDoc where
  title : String
  description : String
  skills : List String
  interests : List String
  source_file : String
  model : String
  source_excerpt : Option String
  thumbprint : Option String
deriving DecidableEq

/-- Embedding of the `normalize_opportunity` node (the produced dict has
no `thumbprint` key yet; the batch driver adds it before writing). -/
def normalize_opportunity (extracted : CandidateRec)
    (rawText fileName : String)
    (skillMap interestMap : List (String × String)) (modelName : String) :
    NormalizedDoc :=
  let raw := pyStrip rawText
  let title := pyStrip (if extracted.title = "" then fileName
                        else extracted.title)
  let desc0 := pyStrip (if extracted.description = "" then pyTake raw 800
                        else extracted.description)
  { title := title
    description := if desc0 = "" then "Description unavailable." else desc0
    skills := filterList extracted.skills skillMap
    interests := filterList extracted.interests interestMap
    source_file := fileName
    model := modelName
    source_excerpt := if raw ≠ "" then some (pyTake raw 1200) else none
    thumbprint := none }

/-! ### Change-Detection Gate (`process_opportunity_files`, per item) -/

/-- State of the output record file for one raw input: the file is
missing, exists but is not parseable JSON, parses to a non-dict, or
parses to a dict (whose `thumbprint` key is the `thumbprint` field). -/
inductive ExistingOutput where
  | missing
  | unreadable
  | nonObject
  | object (d : NormalizedDoc)
deriving DecidableEq

/-- One iteration of the batch loop in `process_opportunity_files` for a
single raw input: the returned `Bool` records whether the extraction
service was invoked, and the returned state is the content of the output
record file afterwards.  `hashFn` stands for `compute_thumbprint`
(sha256 hex digest). -/
def processItem (hashFn : String → String) (llm : LlmResult)
    (skillMap interestMap : List (String × String))
    (modelName fileName rawText : String) (existing : ExistingOutput) :
    Bool × ExistingOutput :=
  let thumb := hashFn rawText
  let run : Bool × ExistingOutput :=
    let extracted := extract_opportunity llm rawText fileName
    let normalized := normalize_opportunity extracted rawText fileName
      skillMap interestMap modelName
    (true, .object { normalized with thumbprint := some thumb })
  match existing with
  | .object d => if d.thumbprint = some thumb then (false, .object d) else run
  | _ => run

/-! ### Inverted Index Builder (`append_to_index`,
`build_indexes_from_outputs`, `write_index_file`) -/

structure IndexEntry where
  title : String
  file : String
  source_file : String
deriving DecidableEq

/-- One term's bucket in an index: Python dict `setdefault` + `append`,
so an existing term keeps its position and the entry goes to the end of
its list. -/
def indexAppend (index : List (String × List IndexEntry)) (key : String)
    (entry : IndexEntry) : List (String × List IndexEntry) :=
  if index.any (fun p => p.1 = key) then
    index.map (fun p => if p.1 = key then (p.1, p.2 ++ [entry]) else p)
  else index ++ [(key, [entry])]

/-- Embedding of `append_to_index`. -/
def append_to_index (index : List (String × List IndexEntry))
    (keys : List String) (entry : IndexEntry) :
    List (String × List IndexEntry) :=
  keys.foldl (fun idx key =>
    if key = "" then idx
    else
      let cleaned := pyStrip key
      if cleaned = "" then idx else indexAppend idx cleaned entry) index

/-- One file of the output directory as seen by the index builder:
its name, and its parsed content (`none` = `json.JSONDecodeError`).
The builder only sees `*.json` files, so `path.stem` is the name minus
the final `".json"`. -/
structure StoredFile where
  name : String
  parsed : Option NormalizedDoc
deriving DecidableEq

/-- Embedding of `build_indexes_from_outputs`; the store is the directory
listing in scan order. -/
def build_indexes_from_outputs (store : List StoredFile) :
    List (String × List IndexEntry) × List (String × List IndexEntry) :=
  store.foldl (fun acc f =>
    if pyEndsWith f.name ".idx.json" then acc
    else
      match f.parsed with
      | none => acc
      | some data =>
          let stem := pyDropRight f.name 5
          let entry : IndexEntry :=
            { title := if data.title = "" then stem else data.title
              file := f.name
              source_file := if data.source_file = "" then stem
                             else data.source_file }
          (append_to_index acc.1 data.skills entry,
           append_to_index acc.2 data.interests entry))
    ([], [])

structure IndexPayload where
  label : String
  generated_at : String
  total_terms : Nat
  index : List (String × List IndexEntry)
deriving DecidableEq

/-- Ordering used for the term keys: `key=lambda item: item[0].lower()`. -/
def termLE (p q : String × List IndexEntry) : Prop :=
  pyLower p.1 ≤ pyLower q.1

/-- Ordering used inside each bucket:
`key=lambda item: item["title"].lower()`. -/
def entryLE (a b : IndexEntry) : Prop := pyLower a.title ≤ pyLower b.title

instance : DecidableRel termLE := fun p q =>
  inferInstanceAs (Decidable (pyLower p.1 ≤ pyLower q.1))

instance : DecidableRel entryLE := fun a b =>
  inferInstanceAs (Decidable (pyLower a.title ≤ pyLower b.title))

instance : IsTotal (String × List IndexEntry) termLE :=
  ⟨fun p q => le_total (pyLower p.1) (pyLower q.1)⟩

instance : IsTrans (String × List IndexEntry) termLE :=
  ⟨fun _ _ _ h1 h2 => le_trans h1 h2⟩

instance : IsTotal IndexEntry entryLE :=
  ⟨fun a b => le_total (pyLower a.title) (pyLower b.title)⟩

instance : IsTrans IndexEntry entryLE :=
  ⟨fun _ _ _ h1 h2 => le_trans h1 h2⟩

/-- Embedding of `write_index_file`: the persisted payload (Python
`sorted` is a stable sort; insertion sort over a total preorder is the
same stable sort). -/
def write_index_payload (label : String)
    (index : List (String × List IndexEntry)) (generated_at : String) :
    IndexPayload :=
  let sortedIndex :=
    (index.insertionSort termLE).map
      (fun p => (p.1, p.2.insertionSort entryLE))
  { label := label
    generated_at := generated_at
    total_terms := sortedIndex.length
    index := sortedIndex }

/-! ### Intent Extractor (`extract_intent` in `app.py`) -/

/-- Embedding of the inner `match_terms` closure; `lowered` is the
already lower-cased query. -/
def match_terms (lowered : String) (terms : List String) : List String :=
  terms.foldl (fun acc term =>
    let token := pyStrip term
    if token = "" then acc
    else if hasSegment (pyLower token).data lowered.data ∧ token ∉ acc then
      acc ++ [token]
    else acc) []

/-- Embedding of `extract_intent`: the `(skills, interests)` pair. -/
def extract_intent (query : String) (skills interests : List String) :
    List String × List String :=
  let lowered := pyLower query
  (match_terms lowered skills, match_terms lowered interests)

/-! ### Match Consolidator (`consolidate_matches` in `app.py`) -/

structure MatchResult where
  title : String
  file : String
  source_file : String
  score : ℚ
  skills : List String
  interests : List String
  details : Option NormalizedDoc
deriving DecidableEq

/-- Python dict `.get(term, [])` on an index. -/
def idxGet (idx : List (String × List IndexEntry)) (t : String) :
    List IndexEntry :=
  match idx.find? (fun p => p.1 = t) with
  | some p => p.2
  | none => []

/-- The mutation `match[category].append(term); match["score"] += weight`
applied to an existing candidate. -/
def bump (isSkill : Bool) (w : ℚ) (term : String) (m : MatchResult) :
    MatchResult :=
  { m with score := m.score + w
           skills := if isSkill then m.skills ++ [term] else m.skills
           interests := if isSkill then m.interests
                        else m.interests ++ [term] }

/-- The candidate freshly created by `combined.setdefault` and then
mutated once (initial score `0.0` plus the first weight). -/
def freshMatch (e : IndexEntry) (term : String) (isSkill : Bool) (w : ℚ) :
    MatchResult :=
  { title := e.title, file := e.file, source_file := e.source_file
    score := 0 + w
    skills := if isSkill then [term] else []
    interests := if isSkill then [] else [term]
    details := none }

/-- Embedding of the `register` closure: candidates keyed by `file`
(insertion-ordered dict), entries with a falsy `file` skipped. -/
def register (c : List MatchResult) (e : IndexEntry) (term : String)
    (isSkill : Bool) (w : ℚ) : List MatchResult :=
  if e.file = "" then c
  else if c.any (fun m => m.file = e.file) then
    c.map (fun m => if m.file = e.file then bump isSkill w term m else m)
  else c ++ [freshMatch e term isSkill w]

/-- The inner loop `for entry in index.get(term, []): register(...)`. -/
def registerAll (c : List MatchResult) (term : String)
    (entries : List IndexEntry) (isSkill : Bool) (w : ℚ) :
    List MatchResult :=
  entries.foldl (fun c e => register c e term isSkill w) c

/-- One of the two scoring loops of `consolidate_matches`. -/
def scorePhase (idx : List (String × List IndexEntry))
    (terms : List String) (isSkill : Bool) (w : ℚ)
    (c : List MatchResult) : List MatchResult :=
  terms.foldl (fun c t => registerAll c t (idxGet idx t) isSkill w) c

/-- The candidate pool of `consolidate_matches` before enrichment and
sorting: both scoring loops, weights 2.0 for skills and 1.5 for
interests. -/
def consolidateCombined (skillIdx interestIdx : List (String × List IndexEntry))
    (intentSkills intentInterests : List String) : List MatchResult :=
  scorePhase interestIdx intentInterests false 1.5
    (scorePhase skillIdx intentSkills true 2 [])

/-- Enrichment of a candidate with the record read live from the store
(`data = json.loads(...)` or `{}` on any failure): only the `details`
field changes. -/
def addDetails (store : List (String × NormalizedDoc)) (m : MatchResult) :
    MatchResult :=
  { m with details := (store.find? (fun p => p.1 = m.file)).map Prod.snd }

/-- Sort key of `consolidate_matches`:
`key=lambda item: (-item["score"], item["title"].lower())`. -/
def matchLE (a b : MatchResult) : Prop :=
  b.score < a.score ∨
    (a.score = b.score ∧ pyLower a.title ≤ pyLower b.title)

instance : DecidableRel matchLE := fun _ _ =>
  inferInstanceAs (Decidable (_ ∨ _))

instance : IsTotal MatchResult matchLE := by
  constructor
  intro a b
  rcases lt_trichotomy a.score b.score with h | h | h
  · exact Or.inr (Or.inl h)
  · rcases le_total (pyLower a.title) (pyLower b.title) with ht | ht
    · exact Or.inl (Or.inr ⟨h, ht⟩)
    · exact Or.inr (Or.inr ⟨h.symm, ht⟩)
  · exact Or.inl (Or.inl h)

instance : IsTrans MatchResult matchLE := by
  constructor
  rintro a b c (h1 | ⟨h1, t1⟩) (h2 | ⟨h2, t2⟩)
  · exact Or.inl (lt_trans h2 h1)
  · exact Or.inl (h2 ▸ h1)
  · exact Or.inl (h1 ▸ h2)
  · exact Or.inr ⟨h1.trans h2, le_trans t1 t2⟩

/-- Embedding of `consolidate_matches`: the `(items, available)` pair of
the returned dict.  `store` is the record store used for the `details`
enrichment. -/
def consolidate_matches (skillIdx interestIdx : List (String × List IndexEntry))
    (store : List (String × NormalizedDoc))
    (intentSkills intentInterests : List String) (limit : Nat) :
    List MatchResult × Nat :=
  let results :=
    (consolidateCombined skillIdx interestIdx intentSkills intentInterests).map
      (addDetails store)
  let ordered := results.insertionSort matchLE
  (ordered.take (max limit 1), ordered.length)

/-! ### Consolidator invariants -/

theorem bump_file (b : Bool) (w : ℚ) (t : String) (m : MatchResult) :
    (bump b w t m).file = m.file := rfl

theorem mem_register {c : List MatchResult} {e : IndexEntry} {t : String}
    {b : Bool} {w : ℚ} {m' : MatchResult} (h : m' ∈ register c e t b w) :
    m' ∈ c ∨ (∃ m, m ∈ c ∧ m.file = e.file ∧ m' = bump b w t m) ∨
      (m' = freshMatch e t b w ∧ e.file ≠ "") := by
  unfold register at h
  by_cases h1 : e.file = ""
  · rw [if_pos h1] at h; exact Or.inl h
  · rw [if_neg h1] at h
    by_cases h2 : c.any (fun m => m.file = e.file) = true
    · rw [if_pos h2] at h
      rcases List.mem_map.mp h with ⟨m, hm, hmap⟩
      by_cases h3 : m.file = e.file
      · rw [if_pos h3] at hmap
        exact Or.inr (Or.inl ⟨m, hm, h3, hmap.symm⟩)
      · rw [if_neg h3] at hmap
        exact Or.inl (hmap ▸ hm)
    · rw [if_neg h2] at h
      rcases List.mem_append.mp h with hm | hm
      · exact Or.inl hm
      · simp only [List.mem_singleton] at hm
        exact Or.inr (Or.inr ⟨hm, h1⟩)

/-- Preservation of a per-candidate predicate by one `register` call. -/
theorem register_pres (P : MatchResult → Prop) {c : List MatchResult}
    {e : IndexEntry} {t : String} {b : Bool} {w : ℚ}
    (hb : ∀ m, P m → m.file = e.file → P (bump b w t m))
    (hf : e.file ≠ "" → P (freshMatch e t b w))
    (hc : ∀ m ∈ c, P m) : ∀ m' ∈ register c e t b w, P m' := by
  intro m' h
  rcases mem_register h with h | ⟨m, hm, hfile, rfl⟩ | ⟨rfl, hne⟩
  · exact hc m' h
  · exact hb m (hc m hm) hfile
  · exact hf hne

theorem registerAll_pres (P : MatchResult → Prop) {t : String} {b : Bool}
    {w : ℚ} (entries : List IndexEntry) (c : List MatchResult)
    (hb : ∀ m e, e ∈ entries → P m → m.file = e.file → P (bump b w t m))
    (hf : ∀ e ∈ entries, e.file ≠ "" → P (freshMatch e t b w))
    (hc : ∀ m ∈ c, P m) : ∀ m' ∈ registerAll c t entries b w, P m' := by
  induction entries generalizing c with
  | nil => simpa [registerAll] using hc
  | cons e es ih =>
    simp only [registerAll, List.foldl_cons]
    refine ih (register c e t b w)
      (fun m e' he' hP hfile => hb m e' (List.mem_cons_of_mem e he') hP hfile)
      (fun e' he' => hf e' (List.mem_cons_of_mem e he'))
      (register_pres P
        (fun m hP hfile => hb m e (List.mem_cons_self _ _) hP hfile)
        (hf e (List.mem_cons_self _ _)) hc)

theorem scorePhase_pres (P : MatchResult → Prop)
    (idx : List (String × List IndexEntry)) {b : Bool} {w : ℚ}
    (terms : List String) (c : List MatchResult)
    (hb : ∀ m t e, t ∈ terms → e ∈ idxGet idx t → P m → m.file = e.file →
      P (bump b w t m))
    (hf : ∀ t ∈ terms, ∀ e ∈ idxGet idx t, e.file ≠ "" →
      P (freshMatch e t b w))
    (hc : ∀ m ∈ c, P m) : ∀ m' ∈ scorePhase idx terms b w c, P m' := by
  induction terms generalizing c with
  | nil => simpa [scorePhase] using hc
  | cons t ts ih =>
    simp only [scorePhase, List.foldl_cons]
    refine ih (registerAll c t (idxGet idx t) b w)
      (fun m t' e ht' he hP hfile =>
        hb m t' e (List.mem_cons_of_mem t ht') he hP hfile)
      (fun t' ht' => hf t' (List.mem_cons_of_mem t ht'))
      (registerAll_pres P (idxGet idx t) c
        (fun m e he hP hfile => hb m t e (List.mem_cons_self _ _) he hP hfile)
        (fun e he => hf t (List.mem_cons_self _ _) e he) hc)

/-- The candidate keys (`file` fields) stay pairwise distinct through
`register`. -/
theorem register_files_nodup {c : List MatchResult} {e : IndexEntry}
    {t : String} {b : Bool} {w : ℚ}
    (h : (c.map (fun m => m.file)).Nodup) :
    ((register c e t b w).map (fun m => m.file)).Nodup := by
  unfold register
  by_cases h1 : e.file = ""
  · rwa [if_pos h1]
  · rw [if_neg h1]
    by_cases h2 : c.any (fun m => m.file = e.file) = true
    · rw [if_pos h2]
      have : (c.map (fun m => if m.file = e.file then bump b w t m else m)).map
          (fun m => m.file) = c.map (fun m => m.file) := by
        rw [List.map_map]
        refine List.map_congr_left ?_
        intro m _
        by_cases h3 : m.file = e.file
        · simp [h3, bump_file]
        · simp [h3]
      rwa [this]
    · rw [if_neg h2]
      rw [List.map_append]
      rw [List.nodup_append]
      refine ⟨h, by simp, ?_⟩
      intro x hx
      simp only [List.map_cons, List.map_nil, List.mem_singleton,
        freshMatch]
      intro heq
      subst heq
      rcases List.mem_map.mp hx with ⟨m, hm, hfm⟩
      rw [List.any_eq_true] at h2
      push_neg at h2
      exact absurd (by simpa using hfm) (by simpa using h2 m hm)

theorem registerAll_files_nodup {t : String} {b : Bool} {w : ℚ}
    (entries : List IndexEntry) (c : List MatchResult)
    (h : (c.map (fun m => m.file)).Nodup) :
    ((registerAll c t entries b w).map (fun m => m.file)).Nodup := by
  induction entries generalizing c with
  | nil => simpa [registerAll] using h
  | cons e es ih =>
    simp only [registerAll, List.foldl_cons]
    exact ih (register c e t b w) (register_files_nodup h)

theorem scorePhase_files_nodup (idx : List (String × List IndexEntry))
    {b : Bool} {w : ℚ} (terms : List String) (c : List MatchResult)
    (h : (c.map (fun m => m.file)).Nodup) :
    ((scorePhase idx terms b w c).map (fun m => m.file)).Nodup := by
  induction terms generalizing c with
  | nil => simpa [scorePhase] using h
  | cons t ts ih =>
    simp only [scorePhase, List.foldl_cons]
    exact ih (registerAll c t (idxGet idx t) b w)
      (registerAll_files_nodup (idxGet idx t) c h)

/-- The candidate stored under key `f` in the `combined` dict. -/
def findByFile (c : List MatchResult) (f : String) : Option MatchResult :=
  c.find? (fun m => m.file = f)

theorem findByFile_register (c : List MatchResult) (e : IndexEntry)
    (t : String) (b : Bool) (w : ℚ) (f : String) (hf : f ≠ "") :
    findByFile (register c e t b w) f =
      if e.file = f then
        match findByFile c f with
        | some m => some (bump b w t m)
        | none => some (freshMatch e t b w)
      else findByFile c f := by
  unfold register findByFile
  by_cases h1 : e.file = ""
  · rw [if_pos h1, if_neg (by rw [h1]; exact fun h => hf h.symm)]
  · rw [if_neg h1]
    by_cases h2 : c.any (fun m => m.file = e.file) = true
    · rw [if_pos h2]
      have hmap : (c.map (fun m => if m.file = e.file then bump b w t m
          else m)).find? (fun m => m.file = f)
          = (c.find? (fun m => m.file = f)).map
              (fun m => if m.file = e.file then bump b w t m else m) := by
        rw [List.find?_map]
        have hpred : ((fun m : MatchResult => decide (m.file = f)) ∘
            fun m => if m.file = e.file then bump b w t m else m)
            = fun m : MatchResult => decide (m.file = f) := by
          funext m
          by_cases h3 : m.file = e.file <;> simp [h3, bump_file]
        rw [hpred]
      rw [hmap]
      by_cases h4 : e.file = f
      · rw [if_pos h4]
        rw [List.any_eq_true] at h2
        obtain ⟨m0, hm0, hfile0⟩ := h2
        simp only [decide_eq_true_eq] at hfile0
        cases hfind : c.find? (fun m => m.file = f) with
        | none =>
          rw [List.find?_eq_none] at hfind
          have hcontra := hfind m0 hm0
          simp [hfile0, h4] at hcontra
        | some m =>
          have hmf : m.file = f := by
            simpa using List.find?_some hfind
          simp [hmf, h4]
      · rw [if_neg h4]
        cases hfind : c.find? (fun m => m.file = f) with
        | none => rfl
        | some m =>
          have hmf : m.file = f := by
            simpa using List.find?_some hfind
          have : ¬ m.file = e.file := by rw [hmf]; exact fun h => h4 h.symm
          simp [this]
    · rw [if_neg h2]
      rw [List.find?_append]
      by_cases h4 : e.file = f
      · rw [if_pos h4]
        have hnone : c.find? (fun m => m.file = f) = none := by
          rw [List.find?_eq_none]
          intro m hm
          simp only [decide_eq_true_eq]
          intro hmf
          exact h2 (List.any_eq_true.mpr ⟨m, hm, by simp [hmf, h4]⟩)
        rw [hnone]
        simp [List.find?, freshMatch, h4]
      · rw [if_neg h4]
        have hone : ([freshMatch e t b w].find? (fun m => m.file = f)) = none := by
          simp [List.find?, freshMatch, h4]
        rw [hone]
        cases c.find? (fun m => m.file = f) <;> rfl

theorem findByFile_registerAll_no_hit (c : List MatchResult) (t : String)
    (entries : List IndexEntry) (b : Bool) (w : ℚ) (f : String)
    (hf : f ≠ "") (h : ∀ e ∈ entries, e.file ≠ f) :
    findByFile (registerAll c t entries b w) f = findByFile c f := by
  induction entries generalizing c with
  | nil => rfl
  | cons e es ih =>
    show findByFile (registerAll (register c e t b w) t es b w) f = _
    rw [ih (register c e t b w) (fun e' he' => h e' (List.mem_cons_of_mem e he'))]
    rw [findByFile_register c e t b w f hf,
      if_neg (h e (List.mem_cons_self _ _))]

/-- Invariant of one candidate slot: the slot holds exactly the matched
skill terms `sk` and interest terms `it` accumulated so far, and a score
of 2.0 per skill plus 1.5 per interest. -/
def poolDoc (o : Option MatchResult) (f : String) (sk it : List String) :
    Prop :=
  match o with
  | none => sk = [] ∧ it = []
  | some m => m.file = f ∧ m.skills = sk ∧ m.interests = it ∧
      m.score = 2 * sk.length + 1.5 * it.length

theorem poolDoc_registerAll_skill (c : List MatchResult) (t : String)
    (entries : List IndexEntry) (f : String) (sk it : List String)
    (hf : f ≠ "")
    (hE : entries.countP (fun e => e.file = f) ≤ 1)
    (h : poolDoc (findByFile c f) f sk it) :
    poolDoc (findByFile (registerAll c t entries true 2) f) f
      (if entries.any (fun e => e.file = f) then sk ++ [t] else sk) it := by
  induction entries generalizing c with
  | nil => simpa [registerAll] using h
  | cons e es ih =>
    by_cases he : e.file = f
    · have hes : ∀ e' ∈ es, e'.file ≠ f := by
        intro e' he' heq
        have hpos : 0 < es.countP (fun e => e.file = f) :=
          List.countP_pos_iff.mpr ⟨e', he', by simpa using heq⟩
        rw [List.countP_cons, if_pos (by simpa using he)] at hE
        omega
      have hrest := findByFile_registerAll_no_hit
        (register c e t true 2) t es true 2 f hf hes
      show poolDoc (findByFile (registerAll (register c e t true 2) t es true 2) f) _ _ _
      rw [hrest, findByFile_register c e t true 2 f hf, if_pos he,
        if_pos (by simp [he])]
      cases hfind : findByFile c f with
      | none =>
        rw [hfind] at h
        obtain ⟨hsk, hit⟩ := h
        subst hsk; subst hit
        refine ⟨by simp [freshMatch, he], by simp [freshMatch], by simp [freshMatch], ?_⟩
        show (0 : ℚ) + 2 = 2 * ([t].length : ℚ) + 1.5 * (([] : List String).length : ℚ)
        norm_num
      | some m =>
        rw [hfind] at h
        obtain ⟨h1, h2, h3, h4⟩ := h
        refine ⟨by simpa [bump_file] using h1, by simp [bump, h2],
          by simp [bump, h3], ?_⟩
        show m.score + 2 = _
        rw [h4]
        push_cast [List.length_append, List.length_singleton]
        ring
    · have hE' : es.countP (fun e => e.file = f) ≤ 1 := by
        rw [List.countP_cons] at hE
        omega
      have hstep : findByFile (register c e t true 2) f = findByFile c f := by
        rw [findByFile_register c e t true 2 f hf, if_neg he]
      have hres := ih (register c e t true 2) hE' (by rw [hstep]; exact h)
      have hany : (e :: es).any (fun e => e.file = f)
          = es.any (fun e => e.file = f) := by
        simp [he]
      rw [hany]
      exact hres

theorem poolDoc_registerAll_interest (c : List MatchResult) (t : String)
    (entries : List IndexEntry) (f : String) (sk it : List String)
    (hf : f ≠ "")
    (hE : entries.countP (fun e => e.file = f) ≤ 1)
    (h : poolDoc (findByFile c f) f sk it) :
    poolDoc (findByFile (registerAll c t entries false 1.5) f) f sk
      (if entries.any (fun e => e.file = f) then it ++ [t] else it) := by
  induction entries generalizing c with
  | nil => simpa [registerAll] using h
  | cons e es ih =>
    by_cases he : e.file = f
    · have hes : ∀ e' ∈ es, e'.file ≠ f := by
        intro e' he' heq
        have hpos : 0 < es.countP (fun e => e.file = f) :=
          List.countP_pos_iff.mpr ⟨e', he', by simpa using heq⟩
        rw [List.countP_cons, if_pos (by simpa using he)] at hE
        omega
      have hrest := findByFile_registerAll_no_hit
        (register c e t false 1.5) t es false 1.5 f hf hes
      show poolDoc (findByFile (registerAll (register c e t false 1.5) t es false 1.5) f) _ _ _
      rw [hrest, findByFile_register c e t false 1.5 f hf, if_pos he,
        if_pos (by simp [he])]
      cases hfind : findByFile c f with
      | none =>
        rw [hfind] at h
        obtain ⟨hsk, hit⟩ := h
        subst hsk; subst hit
        refine ⟨by simp [freshMatch, he], by simp [freshMatch], by simp [freshMatch], ?_⟩
        show (0 : ℚ) + 1.5 = 2 * (([] : List String).length : ℚ) + 1.5 * (([t].length : ℚ))
        norm_num
      | some m =>
        rw [hfind] at h
        obtain ⟨h1, h2, h3, h4⟩ := h
        refine ⟨by simpa [bump_file] using h1, by simp [bump, h2],
          by simp [bump, h3], ?_⟩
        show m.score + 1.5 = _
        rw [h4]
        push_cast [List.length_append, List.length_singleton]
        ring
    · have hE' : es.countP (fun e => e.file = f) ≤ 1 := by
        rw [List.countP_cons] at hE
        omega
      have hstep : findByFile (register c e t false 1.5) f = findByFile c f := by
        rw [findByFile_register c e t false 1.5 f hf, if_neg he]
      have hres := ih (register c e t false 1.5) hE' (by rw [hstep]; exact h)
      have hany : (e :: es).any (fun e => e.file = f)
          = es.any (fun e => e.file = f) := by
        simp [he]
      rw [hany]
      exact hres

theorem poolDoc_scorePhase_skill (idx : List (String × List IndexEntry))
    (terms : List String) (c : List MatchResult)
    (f : String) (sk it : List String) (hf : f ≠ "")
    (hidx : ∀ t ∈ terms, (idxGet idx t).countP (fun e => e.file = f) ≤ 1)
    (h : poolDoc (findByFile c f) f sk it) :
    poolDoc (findByFile (scorePhase idx terms true 2 c) f) f
      (sk ++ terms.filter (fun t => (idxGet idx t).any (fun e => e.file = f)))
      it := by
  induction terms generalizing c sk with
  | nil => simpa [scorePhase] using h
  | cons t ts ih =>
    show poolDoc (findByFile (scorePhase idx ts true 2
      (registerAll c t (idxGet idx t) true 2)) f) _ _ _
    have hstep := poolDoc_registerAll_skill c t (idxGet idx t) f sk it hf
      (hidx t (List.mem_cons_self _ _)) h
    have htail := ih (registerAll c t (idxGet idx t) true 2) _
      (fun t' ht' => hidx t' (List.mem_cons_of_mem t ht')) hstep
    by_cases hhit : (idxGet idx t).any (fun e => e.file = f) = true
    · rw [List.filter_cons, if_pos (by simpa using hhit)]
      rw [if_pos hhit] at htail
      simpa [List.append_assoc] using htail
    · rw [List.filter_cons, if_neg (by simpa using hhit)]
      rw [if_neg hhit] at htail
      exact htail

theorem poolDoc_scorePhase_interest (idx : List (String × List IndexEntry))
    (terms : List String) (c : List MatchResult)
    (f : String) (sk it : List String) (hf : f ≠ "")
    (hidx : ∀ t ∈ terms, (idxGet idx t).countP (fun e => e.file = f) ≤ 1)
    (h : poolDoc (findByFile c f) f sk it) :
    poolDoc (findByFile (scorePhase idx terms false 1.5 c) f) f sk
      (it ++ terms.filter
        (fun t => (idxGet idx t).any (fun e => e.file = f))) := by
  induction terms generalizing c it with
  | nil => simpa [scorePhase] using h
  | cons t ts ih =>
    show poolDoc (findByFile (scorePhase idx ts false 1.5
      (registerAll c t (idxGet idx t) false 1.5)) f) _ _ _
    have hstep := poolDoc_registerAll_interest c t (idxGet idx t) f sk it hf
      (hidx t (List.mem_cons_self _ _)) h
    have htail := ih (registerAll c t (idxGet idx t) false 1.5) _
      (fun t' ht' => hidx t' (List.mem_cons_of_mem t ht')) hstep
    by_cases hhit : (idxGet idx t).any (fun e => e.file = f) = true
    · rw [List.filter_cons, if_pos (by simpa using hhit)]
      rw [if_pos hhit] at htail
      simpa [List.append_assoc] using htail
    · rw [List.filter_cons, if_neg (by simpa using hhit)]
      rw [if_neg hhit] at htail
      exact htail

theorem findByFile_of_mem {c : List MatchResult} {m : MatchResult}
    (hnd : (c.map (fun m => m.file)).Nodup) (hm : m ∈ c) :
    findByFile c m.file = some m := by
  induction c with
  | nil => cases hm
  | cons a as ih =>
    rcases List.mem_cons.mp hm with rfl | hm'
    · simp [findByFile, List.find?]
    · have hne : ¬ (a.file = m.file) := by
        intro heq
        have : m.file ∈ as.map (fun m => m.file) :=
          List.mem_map_of_mem _ hm'
        rw [List.map_cons] at hnd
        exact (List.nodup_cons.mp hnd).1 (heq ▸ this)
      have tail := ih (by rw [List.map_cons] at hnd; exact (List.nodup_cons.mp hnd).2) hm'
      simpa [findByFile, List.find?, hne] using tail

/-- A bucket whose `file` fields are pairwise distinct mentions any
given file at most once. -/
theorem countP_le_one_of_map_nodup {α : Type} (l : List α) (g : α → String)
    (hnd : (l.map g).Nodup) (v : String) :
    l.countP (fun x => g x = v) ≤ 1 := by
  induction l with
  | nil => simp
  | cons a as ih =>
    rw [List.map_cons, List.nodup_cons] at hnd
    rw [List.countP_cons]
    by_cases ha : g a = v
    · have hzero : as.countP (fun x => g x = v) = 0 := by
        rw [List.countP_eq_zero]
        intro x hx
        simp only [decide_eq_true_eq]
        intro hxv
        exact hnd.1 (by rw [ha, ← hxv]; exact List.mem_map_of_mem g hx)
      simp [ha, hzero]
    · have := ih hnd.2
      simp only [decide_eq_true_eq]
      rw [if_neg ha]
      omega

/-- All candidates ever placed in the pool carry a non-empty `file`
key. -/
theorem combined_file_ne (skillIdx interestIdx : List (String × List IndexEntry))
    (intS intI : List String) :
    ∀ m ∈ consolidateCombined skillIdx interestIdx intS intI, m.file ≠ "" := by
  unfold consolidateCombined
  refine scorePhase_pres (fun m => m.file ≠ "") interestIdx intI _ ?_ ?_ ?_
  · intro m t e _ _ hP _
    simpa [bump_file] using hP
  · intro t _ e _ hne
    simpa [freshMatch] using hne
  refine scorePhase_pres (fun m => m.file ≠ "") skillIdx intS _ ?_ ?_ ?_
  · intro m t e _ _ hP _
    simpa [bump_file] using hP
  · intro t _ e _ hne
    simpa [freshMatch] using hne
  · intro m hm
    cases hm

theorem combined_files_nodup (skillIdx interestIdx : List (String × List IndexEntry))
    (intS intI : List String) :
    ((consolidateCombined skillIdx interestIdx intS intI).map
      (fun m => m.file)).Nodup := by
  unfold consolidateCombined
  exact scorePhase_files_nodup interestIdx intI _
    (scorePhase_files_nodup skillIdx intS [] (by simp))

/-- Full characterisation of a pool member: its matched-term lists are
the intent terms whose bucket references its file, provided no bucket
references the same file twice. -/
theorem combined_char (skillIdx interestIdx : List (String × List IndexEntry))
    (intS intI : List String)
    (hidx1 : ∀ t f, (idxGet skillIdx t).countP (fun e => e.file = f) ≤ 1)
    (hidx2 : ∀ t f, (idxGet interestIdx t).countP (fun e => e.file = f) ≤ 1) :
    ∀ m ∈ consolidateCombined skillIdx interestIdx intS intI,
      m.skills = intS.filter
          (fun t => (idxGet skillIdx t).any (fun e => e.file = m.file)) ∧
      m.interests = intI.filter
          (fun t => (idxGet interestIdx t).any (fun e => e.file = m.file)) ∧
      m.score = 2 * m.skills.length + 1.5 * m.interests.length := by
  intro m hm
  have hne : m.file ≠ "" := combined_file_ne skillIdx interestIdx intS intI m hm
  have hfind : findByFile (consolidateCombined skillIdx interestIdx intS intI)
      m.file = some m :=
    findByFile_of_mem (combined_files_nodup skillIdx interestIdx intS intI) hm
  have h0 : poolDoc (findByFile ([] : List MatchResult) m.file) m.file [] [] := by
    simp [findByFile, poolDoc]
  have h1 := poolDoc_scorePhase_skill skillIdx intS [] m.file [] [] hne
    (fun t _ => hidx1 t m.file) h0
  have h2 := poolDoc_scorePhase_interest interestIdx intI
    (scorePhase skillIdx intS true 2 []) m.file _ [] hne
    (fun t _ => hidx2 t m.file) h1
  rw [show scorePhase interestIdx intI false 1.5 (scorePhase skillIdx intS true 2 [])
      = consolidateCombined skillIdx interestIdx intS intI from rfl, hfind] at h2
  obtain ⟨_, hsk, hit, hsc⟩ := h2
  refine ⟨by simpa using hsk, by simpa using hit, ?_⟩
  rw [hsc, hsk, hit]

theorem addDetails_title (s : List (String × NormalizedDoc)) (m : MatchResult) :
    (addDetails s m).title = m.title := rfl

theorem addDetails_file (s : List (String × NormalizedDoc)) (m : MatchResult) :
    (addDetails s m).file = m.file := rfl

theorem addDetails_score (s : List (String × NormalizedDoc)) (m : MatchResult) :
    (addDetails s m).score = m.score := rfl

theorem addDetails_skills (s : List (String × NormalizedDoc)) (m : MatchResult) :
    (addDetails s m).skills = m.skills := rfl

theorem addDetails_interests (s : List (String × NormalizedDoc))
    (m : MatchResult) : (addDetails s m).interests = m.interests := rfl

theorem idxGet_countP_le_one (idx : List (String × List IndexEntry))
    (hidx : ∀ p ∈ idx, (p.2.map (fun e => e.file)).Nodup) (t f : String) :
    (idxGet idx t).countP (fun e => e.file = f) ≤ 1 := by
  unfold idxGet
  cases hfind : idx.find? (fun p => p.1 = t) with
  | none => simp
  | some p =>
    exact countP_le_one_of_map_nodup p.2 (fun e => e.file)
      (hidx p (List.mem_of_find?_eq_some hfind)) f

/-- Unconditional bookkeeping invariant of the candidate pool: the score
is 2.0 per recorded skill term plus 1.5 per recorded interest term, and
every recorded term is an intent term whose bucket references the
candidate's file. -/
theorem combined_basic (skillIdx interestIdx : List (String × List IndexEntry))
    (intS intI : List String) :
    ∀ m ∈ consolidateCombined skillIdx interestIdx intS intI,
      m.score = 2 * m.skills.length + 1.5 * m.interests.length ∧
      (∀ t ∈ m.skills, t ∈ intS ∧
        (idxGet skillIdx t).any (fun e => e.file = m.file)) ∧
      (∀ t ∈ m.interests, t ∈ intI ∧
        (idxGet interestIdx t).any (fun e => e.file = m.file)) := by
  unfold consolidateCombined
  refine scorePhase_pres _ interestIdx intI _ ?_ ?_ ?_
  · rintro m t e ht he ⟨hs, hsk, hit⟩ hfile
    refine ⟨?_, ?_, ?_⟩
    · show m.score + 1.5 = 2 * ((if false = true then m.skills ++ [t]
          else m.skills).length : ℚ) + 1.5 * ((if false = true then m.interests
          else m.interests ++ [t]).length : ℚ)
      simp only [Bool.false_eq_true, if_false]
      rw [hs]
      push_cast [List.length_append, List.length_singleton]
      ring
    · intro t' ht'
      simp only [bump, Bool.false_eq_true, if_false] at ht' ⊢
      exact hsk t' ht'
    · intro t' ht'
      simp only [bump, Bool.false_eq_true, if_false] at ht' ⊢
      rcases List.mem_append.mp ht' with hold | hnew
      · exact hit t' hold
      · simp only [List.mem_singleton] at hnew
        subst hnew
        refine ⟨ht, List.any_eq_true.mpr ⟨e, he, by simp [hfile.symm]⟩⟩
  · rintro t ht e he hne
    refine ⟨?_, ?_, ?_⟩
    · show (0 : ℚ) + 1.5 = 2 * ((if false = true then [t]
          else ([] : List String)).length : ℚ) + 1.5 * ((if false = true
          then ([] : List String) else [t]).length : ℚ)
      norm_num
    · intro t' ht'
      simp [freshMatch] at ht'
    · intro t' ht'
      simp only [freshMatch, Bool.false_eq_true, if_false,
        List.mem_singleton] at ht'
      subst ht'
      exact ⟨ht, List.any_eq_true.mpr ⟨e, he, by simp [freshMatch]⟩⟩
  refine scorePhase_pres _ skillIdx intS _ ?_ ?_ ?_
  · rintro m t e ht he ⟨hs, hsk, hit⟩ hfile
    refine ⟨?_, ?_, ?_⟩
    · show m.score + 2 = 2 * ((if true = true then m.skills ++ [t]
          else m.skills).length : ℚ) + 1.5 * ((if true = true then m.interests
          else m.interests ++ [t]).length : ℚ)
      simp only [if_true]
      rw [hs]
      push_cast [List.length_append, List.length_singleton]
      ring
    · intro t' ht'
      simp only [bump, if_true] at ht' ⊢
      rcases List.mem_append.mp ht' with hold | hnew
      · exact hsk t' hold
      · simp only [List.mem_singleton] at hnew
        subst hnew
        refine ⟨ht, List.any_eq_true.mpr ⟨e, he, by simp [hfile.symm]⟩⟩
    · intro t' ht'
      simp only [bump, if_true] at ht' ⊢
      exact hit t' ht'
  · rintro t ht e he hne
    refine ⟨?_, ?_, ?_⟩
    · show (0 : ℚ) + 2 = 2 * ((if true = true then [t]
          else ([] : List String)).length : ℚ) + 1.5 * ((if true = true
          then ([] : List String) else [t]).length : ℚ)
      norm_num
    · intro t' ht'
      simp only [freshMatch, if_true, List.mem_singleton] at ht'
      subst ht'
      exact ⟨ht, List.any_eq_true.mpr ⟨e, he, by simp [freshMatch]⟩⟩
    · intro t' ht'
      simp [freshMatch] at ht'
  · intro m hm
    cases hm

theorem mem_items_exists (skillIdx interestIdx : List (String × List IndexEntry))
    (store : List (String × NormalizedDoc)) (intS intI : List String)
    (limit : Nat) :
    ∀ m ∈ (consolidate_matches skillIdx interestIdx store intS intI limit).1,
      ∃ m0 ∈ consolidateCombined skillIdx interestIdx intS intI,
        m = addDetails store m0 := by
  intro m hm
  have h1 : m ∈ ((consolidateCombined skillIdx interestIdx intS intI).map
      (addDetails store)).insertionSort matchLE :=
    (List.take_sublist _ _).subset hm
  rw [List.mem_insertionSort] at h1
  rcases List.mem_map.mp h1 with ⟨m0, hm0, hmap⟩
  exact ⟨m0, hm0, hmap.symm⟩

theorem items_files_nodup (skillIdx interestIdx : List (String × List IndexEntry))
    (store : List (String × NormalizedDoc)) (intS intI : List String)
    (limit : Nat) :
    (((consolidate_matches skillIdx interestIdx store intS intI limit).1.map
      (fun m => m.file)).Nodup) := by
  have hres : (((consolidateCombined skillIdx interestIdx intS intI).map
      (addDetails store)).map (fun m => m.file))
      = (consolidateCombined skillIdx interestIdx intS intI).map
        (fun m => m.file) := by
    rw [List.map_map]; rfl
  have hperm : List.Perm
      ((((consolidateCombined skillIdx interestIdx intS intI).map
        (addDetails store)).insertionSort matchLE).map (fun m => m.file))
      ((((consolidateCombined skillIdx interestIdx intS intI).map
        (addDetails store)).map (fun m => m.file))) :=
    (List.perm_insertionSort matchLE _).map _
  have hnd : ((((consolidateCombined skillIdx interestIdx intS intI).map
      (addDetails store)).insertionSort matchLE).map
        (fun m => m.file)).Nodup := by
    rw [hperm.nodup_iff, hres]
    exact combined_files_nodup skillIdx interestIdx intS intI
  exact ((List.take_sublist _ _).map _).nodup hnd

theorem items_sorted (skillIdx interestIdx : List (String × List IndexEntry))
    (store : List (String × NormalizedDoc)) (intS intI : List String)
    (limit : Nat) :
    ((consolidate_matches skillIdx interestIdx store intS intI limit).1.Pairwise
      matchLE) :=
  List.Pairwise.sublist (List.take_sublist _ _)
    (List.sorted_insertionSort matchLE _)

/-- C10: in the consolidator's output each document appears at most once
(keyed by record file name), the recorded skill/interest lists hold
exactly the contributing terms, and the score is 2.0 per recorded skill
plus 1.5 per recorded interest. -/
theorem claim_C10_consolidator_invariants
    (skillIdx interestIdx : List (String × List IndexEntry))
    (store : List (String × NormalizedDoc)) (intS intI : List String)
    (limit : Nat) :
    (((consolidate_matches skillIdx interestIdx store intS intI limit).1.map
        (fun m => m.file)).Nodup) ∧
    ∀ m ∈ (consolidate_matches skillIdx interestIdx store intS intI limit).1,
      m.score = 2 * m.skills.length + 1.5 * m.interests.length ∧
      (∀ t ∈ m.skills, t ∈ intS ∧
        (idxGet skillIdx t).any (fun e => e.file = m.file)) ∧
      (∀ t ∈ m.interests, t ∈ intI ∧
        (idxGet interestIdx t).any (fun e => e.file = m.file)) := by
  refine ⟨items_files_nodup skillIdx interestIdx store intS intI limit, ?_⟩
  intro m hm
  rcases mem_items_exists skillIdx interestIdx store intS intI limit m hm
    with ⟨m0, hm0, rfl⟩
  have hb := combined_basic skillIdx interestIdx intS intI m0 hm0
  rw [addDetails_score, addDetails_skills, addDetails_interests, addDetails_file]
  exact hb

/-- C7: with the caller-clamped limit `1 ≤ limit ≤ 25`, the consolidator
returns exactly `min limit M` items and reports `M` available matches,
where `M` is the size of the candidate pool (which lists each matching
document exactly once). -/
theorem claim_C7_result_cap
    (skillIdx interestIdx : List (String × List IndexEntry))
    (store : List (String × NormalizedDoc)) (intS intI : List String)
    (limit : Nat) (h1 : 1 ≤ limit) (_h25 : limit ≤ 25) :
    (consolidate_matches skillIdx interestIdx store intS intI limit).1.length
      = min limit (consolidateCombined skillIdx interestIdx intS intI).length ∧
    (consolidate_matches skillIdx interestIdx store intS intI limit).2
      = (consolidateCombined skillIdx interestIdx intS intI).length ∧
    ((consolidateCombined skillIdx interestIdx intS intI).map
        (fun m => m.file)).Nodup := by
  refine ⟨?_, ?_, combined_files_nodup skillIdx interestIdx intS intI⟩
  · show ((((consolidateCombined skillIdx interestIdx intS intI).map
      (addDetails store)).insertionSort matchLE).take (max limit 1)).length = _
    rw [List.length_take, List.length_insertionSort, List.length_map,
      Nat.max_eq_left h1]
  · show ((((consolidateCombined skillIdx interestIdx intS intI).map
      (addDetails store)).insertionSort matchLE)).length = _
    rw [List.length_insertionSort, List.length_map]

/-- C5: provided each index bucket references each document at most once,
every returned match's score is 2.0 for each intent skill term whose
bucket references it plus 1.5 for each intent interest term whose bucket
references it, and the returned list is ordered by descending score with
ties broken by the lower-cased title ascending. -/
theorem claim_C5_scoring_and_ranking
    (skillIdx interestIdx : List (String × List IndexEntry))
    (store : List (String × NormalizedDoc)) (intS intI : List String)
    (limit : Nat)
    (hidx1 : ∀ p ∈ skillIdx, (p.2.map (fun e => e.file)).Nodup)
    (hidx2 : ∀ p ∈ interestIdx, (p.2.map (fun e => e.file)).Nodup) :
    (∀ m ∈ (consolidate_matches skillIdx interestIdx store intS intI limit).1,
      m.score = 2 * (intS.filter
          (fun t => (idxGet skillIdx t).any (fun e => e.file = m.file))).length
        + 1.5 * (intI.filter
          (fun t => (idxGet interestIdx t).any
            (fun e => e.file = m.file))).length) ∧
    ((consolidate_matches skillIdx interestIdx store intS intI limit).1.Pairwise
      (fun a b => b.score < a.score ∨
        (a.score = b.score ∧ pyLower a.title ≤ pyLower b.title))) := by
  constructor
  · intro m hm
    rcases mem_items_exists skillIdx interestIdx store intS intI limit m hm
      with ⟨m0, hm0, rfl⟩
    have hc := combined_char skillIdx interestIdx intS intI
      (fun t f => idxGet_countP_le_one skillIdx hidx1 t f)
      (fun t f => idxGet_countP_le_one interestIdx hidx2 t f) m0 hm0
    obtain ⟨hsk, hit, hsc⟩ := hc
    rw [addDetails_score, addDetails_file, hsc, hsk, hit]
  · exact items_sorted skillIdx interestIdx store intS intI limit

/-! ### Change-detection gate lemmas -/

theorem processItem_skip (hashFn : String → String) (llm : LlmResult)
    (skillMap interestMap : List (String × String))
    (modelName fileName rawText : String) (d : NormalizedDoc)
    (h : d.thumbprint = some (hashFn rawText)) :
    processItem hashFn llm skillMap interestMap modelName fileName rawText
      (.object d) = (false, .object d) := by
  unfold processItem
  dsimp only
  rw [if_pos h]

/-- Whatever the starting state, after one batch step the output record
carries the thumbprint of the current raw content. -/
theorem processItem_writes_thumb (hashFn : String → String) (llm : LlmResult)
    (skillMap interestMap : List (String × String))
    (modelName fileName rawText : String) (existing : ExistingOutput) :
    ∃ d : NormalizedDoc,
      (processItem hashFn llm skillMap interestMap modelName fileName rawText
        existing).2 = .object d ∧ d.thumbprint = some (hashFn rawText) := by
  unfold processItem
  cases existing with
  | object d0 =>
    dsimp only
    by_cases hd : d0.thumbprint = some (hashFn rawText)
    · rw [if_pos hd]
      exact ⟨d0, rfl, hd⟩
    · rw [if_neg hd]
      exact ⟨_, rfl, rfl⟩
  | missing => exact ⟨_, rfl, rfl⟩
  | unreadable => exact ⟨_, rfl, rfl⟩
  | nonObject => exact ⟨_, rfl, rfl⟩

/-- C1: when the output record exists, parses to a dict and its stored
`thumbprint` equals the freshly computed hash of the raw content, the
batch step skips the item entirely (no extraction call, record file left
untouched); consequently, whatever the starting state, a second run over
the same raw content performs zero extraction calls and leaves the
record (hence its `thumbprint`) unchanged. -/
theorem claim_C1_gate_idempotent (hashFn : String → String)
    (llm llm2 : LlmResult) (skillMap interestMap : List (String × String))
    (modelName fileName rawText : String) (d : NormalizedDoc)
    (h : d.thumbprint = some (hashFn rawText)) :
    processItem hashFn llm skillMap interestMap modelName fileName rawText
        (.object d) = (false, .object d) ∧
    ∀ existing : ExistingOutput,
      processItem hashFn llm2 skillMap interestMap modelName fileName rawText
          ((processItem hashFn llm skillMap interestMap modelName fileName
            rawText existing).2)
        = (false, (processItem hashFn llm skillMap interestMap modelName
            fileName rawText existing).2) := by
  refine ⟨processItem_skip hashFn llm skillMap interestMap modelName fileName
    rawText d h, ?_⟩
  intro existing
  obtain ⟨d', hd', ht'⟩ := processItem_writes_thumb hashFn llm skillMap
    interestMap modelName fileName rawText existing
  rw [hd']
  exact processItem_skip hashFn llm2 skillMap interestMap modelName fileName
    rawText d' ht'

/-- C9: an unreadable existing output, or a stored `thumbprint` different
from the hash of the current raw content, forces a reprocess: the
extraction service is invoked and the rewritten record's `thumbprint` is
the hash of the new raw content. -/
theorem claim_C9_gate_reprocess (hashFn : String → String) (llm : LlmResult)
    (skillMap interestMap : List (String × String))
    (modelName fileName rawText : String) (existing : ExistingOutput)
    (h : existing = .unreadable ∨
      ∃ d, existing = .object d ∧ d.thumbprint ≠ some (hashFn rawText)) :
    (processItem hashFn llm skillMap interestMap modelName fileName rawText
        existing).1 = true ∧
    ∃ d' : NormalizedDoc,
      (processItem hashFn llm skillMap interestMap modelName fileName rawText
        existing).2 = .object d' ∧ d'.thumbprint = some (hashFn rawText) := by
  rcases h with rfl | ⟨d, rfl, hd⟩
  · exact ⟨rfl, processItem_writes_thumb hashFn llm skillMap interestMap
      modelName fileName rawText .unreadable⟩
  · constructor
    · show (processItem hashFn llm skillMap interestMap modelName fileName
        rawText (.object d)).1 = true
      unfold processItem
      dsimp only
      rw [if_neg hd]
    · exact processItem_writes_thumb hashFn llm skillMap interestMap
        modelName fileName rawText (.object d)

/-! ### Vocabulary-loader claim -/

/-- C4 counterexample: on a file whose content does not parse as JSON,
`load_reference_list` raises `ValueError` instead of warning and
returning an empty list, contradicting the claim's "never raises an
exception". -/
theorem claim_C4_counterexample :
    load_reference_list RefFileData.badJson "skills"
      = Except.error "skills file must contain a JSON list" := rfl

/-- C4 (amended): an empty vocabulary file yields a warning and an empty
list without raising, but an unparsable file raises a `ValueError`
("... file must contain a JSON list"). -/
theorem claim_C4_amended (label : String) :
    load_reference_list RefFileData.emptyFile label
      = Except.ok ([], true) ∧
    load_reference_list RefFileData.badJson label
      = Except.error (label ++ " file must contain a JSON list") :=
  ⟨rfl, rfl⟩

/-! ### Extraction-adapter claim -/

/-- C8 counterexample: the fallback description is the first 400
characters of the *stripped* raw text, not of the raw text itself: for
raw content `"hello\n"` the fallback record's description is `"hello"`,
not the claim's `"hello\n"`. -/
theorem claim_C8_counterexample :
    (extract_opportunity LlmResult.transportError "hello\n"
        "animal-shelter").description
      ≠ pyTake "hello\n" 400 := by decide

/-- C8 (amended): on any extraction failure — transport error, non-JSON
response, or a JSON payload that is not an object — the adapter returns
the synthetic fallback record: title = source identifier, description =
first 400 characters of the whitespace-stripped raw text, empty skill
and interest lists; being a total function, it never aborts the batch. -/
theorem claim_C8_amended (rawText fileName : String) :
    extract_opportunity LlmResult.transportError rawText fileName
      = { title := fileName, description := pyTake (pyStrip rawText) 400,
          skills := [], interests := [] } ∧
    extract_opportunity LlmResult.nonJson rawText fileName
      = { title := fileName, description := pyTake (pyStrip rawText) 400,
          skills := [], interests := [] } ∧
    extract_opportunity LlmResult.jsonNonObject rawText fileName
      = { title := fileName, description := pyTake (pyStrip rawText) 400,
          skills := [], interests := [] } :=
  ⟨rfl, rfl, rfl⟩

/-! ### Intent-extractor lemmas -/

theorem match_terms_mem_aux (lowered : String) (terms : List String)
    (acc : List String) (x : String) :
    (x ∈ terms.foldl (fun acc term =>
      let token := pyStrip term
      if token = "" then acc
      else if hasSegment (pyLower token).data lowered.data ∧ token ∉ acc then
        acc ++ [token]
      else acc) acc)
    ↔ x ∈ acc ∨ ((∃ t ∈ terms, pyStrip t = x) ∧ x ≠ "" ∧
        hasSegment (pyLower x).data lowered.data = true) := by
  induction terms generalizing acc with
  | nil => simp
  | cons t ts ih =>
    simp only [List.foldl_cons]
    by_cases h0 : pyStrip t = ""
    · rw [if_pos h0, ih]
      constructor
      · rintro (hx | hx)
        · exact Or.inl hx
        · exact Or.inr ⟨⟨hx.1.choose, List.mem_cons_of_mem t hx.1.choose_spec.1,
            hx.1.choose_spec.2⟩, hx.2⟩
      · rintro (hx | ⟨⟨t', ht', hts⟩, hne, hseg⟩)
        · exact Or.inl hx
        · rcases List.mem_cons.mp ht' with rfl | ht''
          · exact absurd (hts ▸ h0) hne
          · exact Or.inr ⟨⟨t', ht'', hts⟩, hne, hseg⟩
    · rw [if_neg h0]
      by_cases h1 : hasSegment (pyLower (pyStrip t)).data lowered.data = true
          ∧ pyStrip t ∉ acc
      · rw [if_pos h1, ih]
        constructor
        · rintro (hx | hx)
          · rcases List.mem_append.mp hx with hx' | hx'
            · exact Or.inl hx'
            · simp only [List.mem_singleton] at hx'
              subst hx'
              exact Or.inr ⟨⟨t, List.mem_cons_self _ _, rfl⟩, h0, h1.1⟩
          · exact Or.inr ⟨⟨hx.1.choose, List.mem_cons_of_mem t hx.1.choose_spec.1,
              hx.1.choose_spec.2⟩, hx.2⟩
        · rintro (hx | ⟨⟨t', ht', hts⟩, hne, hseg⟩)
          · exact Or.inl (List.mem_append_left _ hx)
          · rcases List.mem_cons.mp ht' with rfl | ht''
            · exact Or.inl (List.mem_append_right _ (by simp [hts]))
            · exact Or.inr ⟨⟨t', ht'', hts⟩, hne, hseg⟩
      · rw [if_neg h1, ih]
        rw [not_and_or] at h1
        constructor
        · rintro (hx | hx)
          · exact Or.inl hx
          · exact Or.inr ⟨⟨hx.1.choose, List.mem_cons_of_mem t hx.1.choose_spec.1,
              hx.1.choose_spec.2⟩, hx.2⟩
        · rintro (hx | ⟨⟨t', ht', hts⟩, hne, hseg⟩)
          · exact Or.inl hx
          · rcases List.mem_cons.mp ht' with rfl | ht''
            · rcases h1 with h1 | h1
              · rw [hts] at h1
                exact absurd hseg h1
              · rw [Decidable.not_not] at h1
                exact Or.inl (hts ▸ h1)
            · exact Or.inr ⟨⟨t', ht'', hts⟩, hne, hseg⟩

theorem match_terms_nodup_aux (lowered : String) (terms : List String)
    (acc : List String) (hacc : acc.Nodup) :
    (terms.foldl (fun acc term =>
      let token := pyStrip term
      if token = "" then acc
      else if hasSegment (pyLower token).data lowered.data ∧ token ∉ acc then
        acc ++ [token]
      else acc) acc).Nodup := by
  induction terms generalizing acc with
  | nil => simpa using hacc
  | cons t ts ih =>
    simp only [List.foldl_cons]
    by_cases h0 : pyStrip t = ""
    · rw [if_pos h0]; exact ih acc hacc
    · rw [if_neg h0]
      by_cases h1 : hasSegment (pyLower (pyStrip t)).data lowered.data = true
          ∧ pyStrip t ∉ acc
      · rw [if_pos h1]
        exact ih _ (by simp [List.nodup_append, hacc, h1.2])
      · rw [if_neg h1]; exact ih acc hacc

theorem match_terms_sublist_aux (lowered : String) (terms : List String)
    (acc : List String) :
    ∃ ext, (terms.foldl (fun acc term =>
      let token := pyStrip term
      if token = "" then acc
      else if hasSegment (pyLower token).data lowered.data ∧ token ∉ acc then
        acc ++ [token]
      else acc) acc) = acc ++ ext ∧ ext.Sublist (terms.map pyStrip) := by
  induction terms generalizing acc with
  | nil => exact ⟨[], by simp, by simp⟩
  | cons t ts ih =>
    simp only [List.foldl_cons, List.map_cons]
    by_cases h0 : pyStrip t = ""
    · rw [if_pos h0]
      obtain ⟨ext, h1, h2⟩ := ih acc
      exact ⟨ext, h1, h2.cons _⟩
    · rw [if_neg h0]
      by_cases h1 : hasSegment (pyLower (pyStrip t)).data lowered.data = true
          ∧ pyStrip t ∉ acc
      · rw [if_pos h1]
        obtain ⟨ext, he, hs⟩ := ih (acc ++ [pyStrip t])
        exact ⟨pyStrip t :: ext, by simpa [List.append_assoc] using he,
          hs.cons₂ _⟩
      · rw [if_neg h1]
        obtain ⟨ext, he, hs⟩ := ih acc
        exact ⟨ext, he, hs.cons _⟩

/-- C6: the intent extractor returns exactly the (trimmed, non-empty)
controlled terms whose lower-cased text occurs literally in the
lower-cased query, without duplicates and in vocabulary order; on the
query "I love working with animals on weekends" against interests
["animals", "education"] it returns exactly ["animals"]. -/
theorem claim_C6_intent_extractor (query : String)
    (skills interests : List String) :
    (∀ x, x ∈ (extract_intent query skills interests).1 ↔
      ((∃ t ∈ skills, pyStrip t = x) ∧ x ≠ "" ∧
        hasSegment (pyLower x).data (pyLower query).data = true)) ∧
    (∀ x, x ∈ (extract_intent query skills interests).2 ↔
      ((∃ t ∈ interests, pyStrip t = x) ∧ x ≠ "" ∧
        hasSegment (pyLower x).data (pyLower query).data = true)) ∧
    (extract_intent query skills interests).1.Nodup ∧
    (extract_intent query skills interests).2.Nodup ∧
    (extract_intent query skills interests).1.Sublist (skills.map pyStrip) ∧
    (extract_intent query skills interests).2.Sublist (interests.map pyStrip) ∧
    extract_intent "I love working with animals on weekends" []
      ["animals", "education"] = ([], ["animals"]) := by
  refine ⟨?_, ?_, ?_, ?_, ?_, ?_, by decide⟩
  · intro x
    have := match_terms_mem_aux (pyLower query) skills [] x
    simpa [extract_intent, match_terms] using this
  · intro x
    have := match_terms_mem_aux (pyLower query) interests [] x
    simpa [extract_intent, match_terms] using this
  · exact match_terms_nodup_aux (pyLower query) skills [] (by simp)
  · exact match_terms_nodup_aux (pyLower query) interests [] (by simp)
  · obtain ⟨ext, he, hs⟩ := match_terms_sublist_aux (pyLower query) skills []
    show match_terms (pyLower query) skills |>.Sublist _
    rw [match_terms, he]
    simpa using hs
  · obtain ⟨ext, he, hs⟩ := match_terms_sublist_aux (pyLower query) interests []
    show match_terms (pyLower query) interests |>.Sublist _
    rw [match_terms, he]
    simpa using hs

/-- C2: with a vocabulary whose lower-cased terms are pairwise distinct,
the normalizer's filtering coincides with the specification's matching
rule (exact case-insensitive match to the canonical casing, otherwise
first substring match in vocabulary order, otherwise dropped), and the
result is duplicate-free and contains only controlled terms. -/
theorem claim_C2_normalizer_matching (vocab values : List String)
    (h : (vocab.map pyLower).Nodup) :
    filterList values (buildAllowedMap vocab) = specFilterList values vocab ∧
    (filterList values (buildAllowedMap vocab)).Nodup ∧
    ∀ x ∈ filterList values (buildAllowedMap vocab), x ∈ vocab := by
  refine ⟨?_, ?_, ?_⟩
  · rw [filterList_unfold]
    have hstep : (fun (acc : List String) (v : String) =>
        match matchToken (pyStrip v) (buildAllowedMap vocab) with
        | some mt => if mt ≠ "" ∧ mt ∉ acc then acc ++ [mt] else acc
        | none => acc)
        = (fun (acc : List String) (v : String) =>
        match specMatchToken (pyStrip v) vocab with
        | some mt => if mt ≠ "" ∧ mt ∉ acc then acc ++ [mt] else acc
        | none => acc) := by
      funext acc v
      rw [matchToken_eq_spec (pyStrip v) vocab h]
    rw [hstep]
    rfl
  · exact filterList_nodup_aux values (buildAllowedMap vocab) [] (by simp)
  · intro x hx
    obtain ⟨p, hp, hpx⟩ := filterList_sub_aux values (buildAllowedMap vocab) []
      (by simp) x hx
    rw [buildAllowedMap_eq vocab h] at hp
    obtain ⟨t, ht, hpt⟩ := List.mem_map.mp hp
    rw [← hpx, ← hpt]
    exact ht

/-! ### Index-builder claim -/

theorem write_index_sorted (label t : String)
    (idx : List (String × List IndexEntry)) :
    ∀ p ∈ (write_index_payload label idx t).index,
      p.2.Pairwise (fun a b => pyLower a.title ≤ pyLower b.title) := by
  intro p hp
  unfold write_index_payload at hp
  simp only at hp
  rcases List.mem_map.mp hp with ⟨q, hq, rfl⟩
  exact List.sorted_insertionSort entryLE q.2

/-- C3: the persisted `index` mapping is a function of the record-store
contents alone — two rebuilds over an unchanged store agree on `label`,
`total_terms` and the whole `index`, differing at most in
`generated_at` — and inside every term's entry list the entries are
sorted by lower-cased title ascending. -/
theorem claim_C3_index_rebuild_pure (store : List StoredFile)
    (label1 label2 t1 t2 : String) :
    ((write_index_payload label1 (build_indexes_from_outputs store).1 t1).index
      = (write_index_payload label1 (build_indexes_from_outputs store).1
          t2).index) ∧
    ((write_index_payload label1 (build_indexes_from_outputs store).1
        t1).total_terms
      = (write_index_payload label1 (build_indexes_from_outputs store).1
          t2).total_terms) ∧
    ((write_index_payload label2 (build_indexes_from_outputs store).2 t1).index
      = (write_index_payload label2 (build_indexes_from_outputs store).2
          t2).index) ∧
    (∀ p ∈ (write_index_payload label1
        (build_indexes_from_outputs store).1 t1).index,
      p.2.Pairwise (fun a b => pyLower a.title ≤ pyLower b.title)) ∧
    (∀ p ∈ (write_index_payload label2
        (build_indexes_from_outputs store).2 t1).index,
      p.2.Pairwise (fun a b => pyLower a.title ≤ pyLower b.title)) :=
  ⟨rfl, rfl, rfl, write_index_sorted label1 t1 _, write_index_sorted label2 t1 _⟩

/-! ### Concrete data for the witnesses -/

def wDoc : NormalizedDoc :=
  { title := "Animal Shelter Helper", description := "Walk dogs."
    skills := ["Dog Handling"], interests := ["animals"]
    source_file := "shelter", model := "gpt-5.1"
    source_excerpt := some "Walk dogs.", thumbprint := some "raw text" }

def wE1 : IndexEntry := ⟨"Shelter", "a.json", "a"⟩
def wE2 : IndexEntry := ⟨"Zoo", "b.json", "b"⟩
def wE3 : IndexEntry := ⟨"School", "c.json", "c"⟩

def wPool : List (String × List IndexEntry) :=
  [("x", [⟨"t0", "f0.json", "s"⟩, ⟨"t1", "f1.json", "s"⟩,
    ⟨"t2", "f2.json", "s"⟩, ⟨"t3", "f3.json", "s"⟩, ⟨"t4", "f4.json", "s"⟩,
    ⟨"t5", "f5.json", "s"⟩, ⟨"t6", "f6.json", "s"⟩, ⟨"t7", "f7.json", "s"⟩,
    ⟨"t8", "f8.json", "s"⟩, ⟨"t9", "f9.json", "s"⟩])]

theorem claim_C1_witness :
    wDoc.thumbprint = some ((fun s : String => s) "raw text") ∧
    processItem (fun s => s) .transportError [] [] "gpt-5.1" "shelter"
      "raw text" (.object wDoc) = (false, .object wDoc) :=
  ⟨by decide,
    (claim_C1_gate_idempotent (fun s => s) .transportError .nonJson [] []
      "gpt-5.1" "shelter" "raw text" wDoc (by decide)).1⟩

theorem claim_C9_witness :
    (ExistingOutput.unreadable = ExistingOutput.unreadable ∨
      ∃ d, ExistingOutput.unreadable = ExistingOutput.object d ∧
        d.thumbprint ≠ some ((fun s : String => s) "new text")) ∧
    (processItem (fun s => s) .nonJson [] [] "gpt-5.1" "shelter" "new text"
      .unreadable).1 = true :=
  ⟨Or.inl rfl,
    (claim_C9_gate_reprocess (fun s => s) .nonJson [] [] "gpt-5.1" "shelter"
      "new text" .unreadable (Or.inl rfl)).1⟩

theorem claim_C2_witness :
    ((["Dog Handling", "Teaching"].map pyLower).Nodup) ∧
    filterList ["dog handling", "dog", "junk", "TEACH"]
        (buildAllowedMap ["Dog Handling", "Teaching"])
      = specFilterList ["dog handling", "dog", "junk", "TEACH"]
          ["Dog Handling", "Teaching"] :=
  ⟨by decide,
    (claim_C2_normalizer_matching ["Dog Handling", "Teaching"]
      ["dog handling", "dog", "junk", "TEACH"] (by decide)).1⟩

theorem claim_C5_witness :
    (∀ p ∈ [("animals", [wE1, wE2])], ((p.2.map
      (fun e => e.file)).Nodup)) ∧
    (∀ p ∈ [("education", [wE3])], ((p.2.map (fun e => e.file)).Nodup)) ∧
    ((consolidate_matches [("animals", [wE1, wE2])] [("education", [wE3])]
        [] ["animals"] ["education"] 10).1.Pairwise
      (fun a b => b.score < a.score ∨
        (a.score = b.score ∧ pyLower a.title ≤ pyLower b.title))) :=
  ⟨by decide, by decide,
    (claim_C5_scoring_and_ranking [("animals", [wE1, wE2])]
      [("education", [wE3])] [] ["animals"] ["education"] 10
      (by decide) (by decide)).2⟩

theorem claim_C7_witness :
    1 ≤ 3 ∧ 3 ≤ 25 ∧
    (consolidate_matches wPool [] [] ["x"] [] 3).1.length
      = min 3 (consolidateCombined wPool [] ["x"] []).length ∧
    (consolidateCombined wPool [] ["x"] []).length = 10 :=
  ⟨by decide, by decide,
    (claim_C7_result_cap wPool [] [] ["x"] [] 3 (by decide) (by decide)).1,
    by decide⟩

end Teapot
